import Mathlib

/-!
Verification of the displacement-compositor repository.

Shallow embedding conventions:
- JS numbers are modelled as rationals; `Math.round` is `jsRound` (floor of
  the argument plus one half, which is the half-up rounding JS uses).
- `Uint8Array` entries are modelled as raw integers: every stored value is
  proved to lie in the range zero to 255, so the byte wrap of a typed array
  never fires and is omitted.
- `Array.prototype.sort` with the comparator on the x field is stable; it is
  modelled by Mathlib's stable insertion sort with the non-strict key order.
- The while loop that advances the segment cursor is modelled with explicit
  fuel equal to the list length, which is proved to dominate the number of
  iterations; the characterisation lemma below shows the fueled function
  computes exactly the loop's stopping point.
-/

/-- A control point as consumed by the sampler: the source destructures only
the x and y fields of a ramp point. -/
structure RampPoint where
  x : ℚ
  y : ℚ
deriving DecidableEq, Repr

instance : Inhabited RampPoint := ⟨⟨0, 0⟩⟩

/-- The source's clamp helper: min of (max of the value and the low bound)
and the high bound. -/
def clampQ (v lo hi : ℚ) : ℚ := min (max v lo) hi

/-- JS Math.round on a rational: floor of the value plus one half. -/
def jsRound (q : ℚ) : ℤ := ⌊q + 1 / 2⌋

/-- Clamp both coordinates of a point into the unit interval, as the sampler
does before sorting. -/
def clampPt (p : RampPoint) : RampPoint := ⟨clampQ p.x 0 1, clampQ p.y 0 1⟩

/-- Stable sort by the x coordinate, the model of the source's
sort with comparator a.x - b.x. -/
def sortByX (l : List RampPoint) : List RampPoint :=
  List.insertionSort (fun a b => a.x ≤ b.x) l

/-- Flat extension: if the first point has positive x, prepend a point at
x = 0 with the same y; if the last point has x below one, append a point at
x = 1 with the same y. Mirrors the unshift and push in the source. -/
def extendPts : List RampPoint → List RampPoint
  | [] => []
  | p :: rest =>
    let lastPt := (p :: rest).getLastD p
    (if 0 < p.x then [(⟨0, p.y⟩ : RampPoint)] else []) ++ (p :: rest) ++
      (if lastPt.x < 1 then [(⟨1, lastPt.y⟩ : RampPoint)] else [])

/-- The while-loop condition of the cursor advance: the segment index is
below length minus two and t is strictly beyond the next point's x. -/
def advCond (norm : List RampPoint) (t : ℚ) (s : ℕ) : Prop :=
  s + 2 < norm.length ∧ (norm.getD (s + 1) default).x < t

instance (norm : List RampPoint) (t : ℚ) (s : ℕ) : Decidable (advCond norm t s) :=
  inferInstanceAs (Decidable (_ ∧ _))

/-- Fueled form of the source's cursor-advancing while loop: while the
segment index is below length minus two and t is beyond the next point's x,
step the index. -/
def advanceAux (norm : List RampPoint) (t : ℚ) : ℕ → ℕ → ℕ
  | 0, s => s
  | fuel + 1, s =>
    if advCond norm t s then advanceAux norm t fuel (s + 1) else s

/-- The cursor advance with fuel equal to the list length, which always
suffices (proved below). -/
def advanceSegment (norm : List RampPoint) (t : ℚ) (s : ℕ) : ℕ :=
  advanceAux norm t norm.length s

/-- One output entry computed exactly as the source's loop body: bracketing
points at the segment index, span with the or-one fallback, clamped ratio,
clamped interpolated value, rounded to an integer. -/
def entryAtCode (norm : List RampPoint) (t : ℚ) (s : ℕ) : ℤ :=
  let left := norm.getD s default
  let right := norm.getD (s + 1) left
  let span := if right.x - left.x = 0 then 1 else right.x - left.x
  let frac := clampQ ((t - left.x) / span) 0 1
  let value := clampQ (left.y + (right.y - left.y) * frac) 0 1
  jsRound (value * 255)

/-- The sampling loop: one entry per t value, threading the segment cursor
from one index to the next. -/
def genAux (norm : List RampPoint) : List ℚ → ℕ → List ℤ
  | [], _ => []
  | t :: ts, s =>
    let s1 := advanceSegment norm t s
    entryAtCode norm t s1 :: genAux norm ts s1

/-- The sample positions: index over (size - 1) for each index below size. -/
def tList (size : ℕ) : List ℚ :=
  (List.range size).map (fun i : ℕ => (i : ℚ) / ((size : ℚ) - 1))

/-- The fixed LUT resolution of the source. -/
def RAMP_RESOLUTION : ℕ := 256

/-- The ramp sampler generateRampTextureData: empty input yields a constant
127 table; otherwise clamp, stable-sort by x, flat-extend, then walk the
sample positions with the monotone segment cursor. -/
def generateRampTextureData (points : List RampPoint) (size : ℕ) : List ℤ :=
  if points.isEmpty then List.replicate size 127
  else genAux (extendPts (sortByX (points.map clampPt))) (tList size) 0

/-- The cursor position reached by a from-scratch scan, used by the
claim-side description of the bracketing segment. -/
def findSegment (norm : List RampPoint) (t : ℚ) : ℕ :=
  advanceSegment norm t 0

/-- Clamp an integer into the byte range, as the claim words the final
rounding step. -/
def clamp255 (z : ℤ) : ℤ := min (max z 0) 255

/-- One output entry as the claim describes it: locate the bracketing pair
of the clamped, sorted, flat-extended sequence; interpolate y by the
horizontal ratio clamped to the unit interval, with a zero-width segment
treated as ratio zero; round to the nearest integer and clamp to the byte
range. -/
def entryAtClaim (norm : List RampPoint) (t : ℚ) : ℤ :=
  let s := findSegment norm t
  let left := norm.getD s default
  let right := norm.getD (s + 1) left
  let frac :=
    if right.x = left.x then 0 else clampQ ((t - left.x) / (right.x - left.x)) 0 1
  clamp255 (jsRound ((left.y + (right.y - left.y) * frac) * 255))

/-- The LUT as the claim describes it, entry by entry, with no cursor state
threaded between entries. -/
def rampSpecClaim (points : List RampPoint) (size : ℕ) : List ℤ :=
  if points.isEmpty then List.replicate size 127
  else (tList size).map (entryAtClaim (extendPts (sortByX (points.map clampPt))))

/-!
Capture pipeline (captureGif). Inputs are sanitized, a frame interval and a
frame count are derived, then a tick-driven sampling loop captures frames
and an encoder check rejects empty output. The model below mirrors the
source statement by statement; tick timestamps are the rationals handed to
each requestAnimationFrame callback.
-/

/-- The sanitized parameters and derived quantities computed at the top of
captureGif. The isFinite guard on scale cannot fire over the rationals and
is dropped. -/
structure GifParams where
  sDuration : ℚ
  sFps : ℚ
  sScale : ℚ
  frameIntervalMs : ℚ
  frameCount : ℕ
  delayMs : ℤ
deriving DecidableEq, Repr

/-- Sanitization exactly as written in the source: duration floored at one
half, fps rounded then clamped into one to sixty, scale clamped into one
tenth to one; interval is 1000 over fps; frame count is the rounded product
floored at one; delay is the rounded interval floored at zero. -/
def mkGifParams (duration fps scale : ℚ) : GifParams :=
  let sanitizedDuration := max (1 / 2) duration
  let sanitizedFps : ℚ := min 60 (max 1 ((jsRound fps : ℤ) : ℚ))
  let sanitizedScale := min 1 (max (1 / 10) scale)
  let frameIntervalMs := 1000 / sanitizedFps
  let frameCount := max 1 (jsRound (sanitizedDuration * sanitizedFps)).toNat
  let delayMs := max 0 (jsRound frameIntervalMs)
  ⟨sanitizedDuration, sanitizedFps, sanitizedScale, frameIntervalMs, frameCount, delayMs⟩

/-- The wall-clock stop bound of the sampling loop: duration in
milliseconds plus one frame interval. -/
def capBound (p : GifParams) : ℚ := p.sDuration * 1000 + p.frameIntervalMs

/-- The pixel width or height of the scaled capture buffer: round the
surface dimension times the sanitized scale, floored at one. -/
def targetDim (dim : ℕ) (scale : ℚ) : ℕ :=
  max 1 (jsRound ((dim : ℚ) * scale)).toNat

/-- One frame as appended to the growing animation encoding: its pixel
dimensions, its per-frame delay, and the loop-forever repeat marker that is
present only on the first appended frame. -/
structure GifFrame where
  width : ℕ
  height : ℕ
  delay : ℤ
  repeatFlag : Option ℕ
deriving DecidableEq, Repr

/-- The mutable state of the sampling loop: frames captured so far, the
loop's own start timestamp, the next due instant, and the frames appended
to the encoder. -/
structure CapState where
  captured : ℕ
  startTime : ℚ
  nextCapture : ℚ
  frames : List GifFrame
deriving DecidableEq, Repr

/-- The loop state before the first tick. -/
def capInit : CapState := ⟨0, 0, 0, []⟩

/-- One requestAnimationFrame callback of the sampling loop, returning the
new state and whether the promise resolved on this tick. Mirrors the source:
resolve if already complete; on the first tick set start and due instant to
now; capture one frame when now has reached the due instant, advancing the
due instant by one interval; then resolve when the frame count is reached or
the elapsed time since the loop's start has reached the stop bound. -/
def capStep (p : GifParams) (tw th : ℕ) (s : CapState) (now : ℚ) : CapState × Bool :=
  if p.frameCount ≤ s.captured then (s, true)
  else
    let s1 : CapState :=
      if s.captured = 0 then ⟨s.captured, now, now, s.frames⟩ else s
    let s2 : CapState :=
      if s1.nextCapture ≤ now then
        ⟨s1.captured + 1, s1.startTime, s1.nextCapture + p.frameIntervalMs,
          s1.frames ++ [⟨tw, th, p.delayMs, if s1.frames.length = 0 then some 0 else none⟩]⟩
      else s1
    if p.frameCount ≤ s2.captured ∨ capBound p ≤ now - s2.startTime
    then (s2, true) else (s2, false)

/-- Run the sampling loop over a finite prefix of the tick stream. Returns
the final state and the number of ticks consumed if the loop resolved
within the prefix, and none if the prefix was exhausted first. -/
def capRun (p : GifParams) (tw th : ℕ) : List ℚ → CapState → Option (CapState × ℕ)
  | [], _ => none
  | now :: rest, s =>
    match capStep p tw th s now with
    | (s1, true) => some (s1, 1)
    | (s1, false) => (capRun p tw th rest s1).map (fun r => (r.1, r.2 + 1))

/-- The whole capture loop of captureGif for a surface of the given pixel
size: sanitize the inputs, fix the scaled target dimensions at call start,
and run the sampling loop from the initial state. -/
def captureGifModel (w h : ℕ) (duration fps scale : ℚ) (ticks : List ℚ) :
    Option (CapState × ℕ) :=
  let p := mkGifParams duration fps scale
  capRun p (targetDim w p.sScale) (targetDim h p.sScale) ticks capInit

/-- The final emptiness check of captureGif: a missing or zero-length
finalized encoding is reported as a failure, otherwise the bytes are
returned. -/
def finalizeGif (bytes : Option (List ℕ)) : Except String (List ℕ) :=
  match bytes with
  | none => Except.error "Generated GIF was empty"
  | some bs =>
    if bs.length = 0 then Except.error "Generated GIF was empty" else Except.ok bs

/-!
Render loop. Each requestAnimationFrame callback receives the host's
presentation timestamp in milliseconds and pushes that timestamp times
0.001 to the time uniform.
-/

/-- The elapsed-time value pushed to the time uniform on a render tick with
the given callback timestamp: the source pushes time times 0.001. -/
def renderTickTime (now : ℚ) : ℚ := now * (1 / 1000)

/-- The sequence of time-uniform values pushed by one render-loop instance
whose callbacks fire at the given timestamps. -/
def renderLoopTimes (ticks : List ℚ) : List ℚ := ticks.map renderTickTime

/-- C4: the ramp sampler applied to the empty collection returns a LUT of
256 entries in which every entry equals 127. -/
theorem rampTexture_empty_flat_midgray :
    generateRampTextureData [] RAMP_RESOLUTION = List.replicate 256 127 := by
  rfl

/-- The fueled advance computes the while loop's exact stopping point
whenever the fuel covers the remaining distance to the cursor cap: the
result is at least the start, the loop condition fails at the result, and
the loop condition holds at every index from the start up to the result. -/
theorem advanceAux_char (norm : List RampPoint) (t : ℚ) :
    ∀ fuel s, norm.length ≤ s + fuel + 2 →
      s ≤ advanceAux norm t fuel s ∧
        ¬ advCond norm t (advanceAux norm t fuel s) ∧
        ∀ v, s ≤ v → v < advanceAux norm t fuel s → advCond norm t v := by
  intro fuel
  induction fuel with
  | zero =>
    intro s hs
    refine ⟨le_refl s, ?_, ?_⟩
    · intro hc
      have := hc.1
      simp [advanceAux] at this ⊢
      omega
    · intro v hv1 hv2
      simp [advanceAux] at hv2
      omega
  | succ n ih =>
    intro s hs
    by_cases h : advCond norm t s
    · have hrw : advanceAux norm t (n + 1) s = advanceAux norm t n (s + 1) := by
        simp [advanceAux, h]
      obtain ⟨ih1, ih2, ih3⟩ := ih (s + 1) (by omega)
      refine ⟨?_, ?_, ?_⟩
      · rw [hrw]; omega
      · rw [hrw]; exact ih2
      · intro v hv1 hv2
        rw [hrw] at hv2
        rcases Nat.eq_or_lt_of_le hv1 with he | hlt
        · rw [← he]; exact h
        · exact ih3 v hlt hv2
    · have hrw : advanceAux norm t (n + 1) s = s := by simp [advanceAux, h]
      rw [hrw]
      exact ⟨le_refl s, h, fun v hv1 hv2 => absurd (lt_of_le_of_lt hv1 hv2) (lt_irrefl s)⟩

/-- The advance never moves the cursor backwards. -/
theorem advanceSegment_ge (norm : List RampPoint) (t : ℚ) (s : ℕ) :
    s ≤ advanceSegment norm t s :=
  (advanceAux_char norm t norm.length s (by omega)).1

/-- The loop condition fails at the advance's stopping point. -/
theorem advanceSegment_stop (norm : List RampPoint) (t : ℚ) (s : ℕ) :
    ¬ advCond norm t (advanceSegment norm t s) :=
  (advanceAux_char norm t norm.length s (by omega)).2.1

/-- The loop condition holds at every index the advance stepped through. -/
theorem advanceSegment_min (norm : List RampPoint) (t : ℚ) (s : ℕ) :
    ∀ v, s ≤ v → v < advanceSegment norm t s → advCond norm t v :=
  (advanceAux_char norm t norm.length s (by omega)).2.2

/-- The cursor never leaves the valid segment range: starting at most two
below the length, it stays at most two below the length. -/
theorem advanceSegment_le (norm : List RampPoint) (t : ℚ) (s : ℕ)
    (h : s + 2 ≤ norm.length) : advanceSegment norm t s + 2 ≤ norm.length := by
  rcases Nat.eq_or_lt_of_le (advanceSegment_ge norm t s) with he | hlt
  · omega
  · have hc := advanceSegment_min norm t s (advanceSegment norm t s - 1) (by omega) (by omega)
    have := hc.1
    omega

/-- The advance's stopping point is the unique index at or past the start
where the loop condition first fails. -/
theorem advanceSegment_unique (norm : List RampPoint) (t : ℚ) (s u : ℕ)
    (h1 : s ≤ u) (h2 : ¬ advCond norm t u)
    (h3 : ∀ v, s ≤ v → v < u → advCond norm t v) :
    advanceSegment norm t s = u := by
  rcases lt_trichotomy (advanceSegment norm t s) u with hlt | he | hgt
  · exact absurd (h3 _ (advanceSegment_ge norm t s) hlt) (advanceSegment_stop norm t s)
  · exact he
  · exact absurd (advanceSegment_min norm t s u h1 hgt) h2

/-- The from-scratch scan is monotone in the sample position. -/
theorem findSegment_mono (norm : List RampPoint) (t t' : ℚ) (h : t ≤ t') :
    findSegment norm t ≤ findSegment norm t' := by
  by_contra hcon
  push_neg at hcon
  have hc := advanceSegment_min norm t 0 (findSegment norm t') (Nat.zero_le _) hcon
  have hs := advanceSegment_stop norm t' 0
  rw [show advanceSegment norm t' 0 = findSegment norm t' from rfl] at hs
  unfold advCond at hc hs
  push_neg at hs
  have h1 := hs hc.1
  have h2 := hc.2
  linarith

/-- Advancing from any cursor position at or before the scan's stopping
point lands exactly on the scan's stopping point: the threaded cursor
computes the same bracketing segment as a from-scratch scan. -/
theorem advanceSegment_from_cursor (norm : List RampPoint) (t : ℚ) (s : ℕ)
    (h : s ≤ findSegment norm t) :
    advanceSegment norm t s = findSegment norm t :=
  advanceSegment_unique norm t s (findSegment norm t) h
    (advanceSegment_stop norm t 0)
    (fun v _ hv2 => advanceSegment_min norm t 0 v (Nat.zero_le v) hv2)

/-- Over a nondecreasing list of sample positions, the stateful sampling
loop produces exactly the entries of the from-scratch per-position scan. -/
theorem genAux_eq_map (norm : List RampPoint) :
    ∀ (ts : List ℚ) (s : ℕ), List.Sorted (· ≤ ·) ts →
      (∀ t ∈ ts, s ≤ findSegment norm t) →
      genAux norm ts s = ts.map (fun t => entryAtCode norm t (findSegment norm t)) := by
  intro ts
  induction ts with
  | nil => intro s _ _; simp [genAux]
  | cons t ts ih =>
    intro s hsort hle
    have h1 : advanceSegment norm t s = findSegment norm t :=
      advanceSegment_from_cursor norm t s (hle t (List.mem_cons_self t ts))
    rw [List.sorted_cons] at hsort
    have h2 := ih (findSegment norm t) hsort.2
      (fun t' ht' => findSegment_mono norm t t' (hsort.1 t' ht'))
    simp only [genAux, h1, h2, List.map_cons]

/-- The clamp helper never exceeds its upper bound. -/
theorem clampQ_le (v lo hi : ℚ) : clampQ v lo hi ≤ hi := min_le_right _ _

/-- The clamp helper never goes below its lower bound when the bounds are
ordered. -/
theorem le_clampQ (v lo hi : ℚ) (h : lo ≤ hi) : lo ≤ clampQ v lo hi :=
  le_min (le_max_right v lo) h

/-- Clamping a value already inside the unit interval changes nothing. -/
theorem clampQ_eq_self (v : ℚ) (h0 : 0 ≤ v) (h1 : v ≤ 1) : clampQ v 0 1 = v := by
  unfold clampQ
  rw [max_eq_left h0, min_eq_left h1]

/-- Clamping a nonpositive value into the unit interval yields zero. -/
theorem clampQ_nonpos (v : ℚ) (h : v ≤ 0) : clampQ v 0 1 = 0 := by
  unfold clampQ
  rw [max_eq_right h]
  norm_num

/-- Rounding a unit-interval value scaled by 255 lands in the byte range. -/
theorem jsRound_byte (v : ℚ) (h0 : 0 ≤ v) (h1 : v ≤ 1) :
    0 ≤ jsRound (v * 255) ∧ jsRound (v * 255) ≤ 255 := by
  constructor
  · apply Int.le_floor.mpr
    push_cast
    linarith
  · have h2 : jsRound (v * 255) < 256 := by
      apply Int.floor_lt.mpr
      push_cast
      linarith
    omega

/-- Clamping an integer already inside the byte range changes nothing. -/
theorem clamp255_eq_self (z : ℤ) (h0 : 0 ≤ z) (h1 : z ≤ 255) : clamp255 z = z := by
  unfold clamp255
  rw [max_eq_left h0, min_eq_left h1]

/-- Linear interpolation between unit-interval values with a unit-interval
ratio stays inside the unit interval. -/
theorem lerp_mem (a b r : ℚ) (ha0 : 0 ≤ a) (ha1 : a ≤ 1) (hb0 : 0 ≤ b)
    (hb1 : b ≤ 1) (hr0 : 0 ≤ r) (hr1 : r ≤ 1) :
    0 ≤ a + (b - a) * r ∧ a + (b - a) * r ≤ 1 := by
  constructor <;> nlinarith

/-- The default-valued last element of a nonempty list is a member. -/
theorem getLastD_mem_cons {α : Type} :
    ∀ (rest : List α) (p : α), (p :: rest).getLastD p ∈ p :: rest := by
  intro rest
  induction rest with
  | nil => intro p; simp
  | cons q rs ih =>
    intro p
    have h1 : (p :: q :: rs).getLastD p = (q :: rs).getLastD q := rfl
    rw [h1]
    exact List.mem_cons_of_mem p (ih q)

/-- Indexing a nonempty list at its length minus one reads its last
element. -/
theorem getD_last_cons {α : Type} :
    ∀ (rest : List α) (p d : α), (p :: rest).getD rest.length d = (p :: rest).getLastD p := by
  intro rest
  induction rest with
  | nil => intro p d; simp
  | cons q rs ih =>
    intro p d
    have h1 : (p :: q :: rs).getD (rs.length + 1) d = (q :: rs).getD rs.length d := rfl
    have h2 : (p :: q :: rs).getLastD p = (q :: rs).getLastD q := rfl
    rw [show (q :: rs).length = rs.length + 1 from rfl, h1, h2, ih q d]

/-- Appending a singleton and indexing at the left part's length reads the
appended element. -/
theorem getD_append_last {α : Type} (L : List α) (a d : α) :
    (L ++ [a]).getD L.length d = a := by
  rw [List.getD_append_right L [a] d L.length (le_refl _)]
  simp

/-- Unfolding of the flat extension on a nonempty list. -/
theorem extendPts_cons (p : RampPoint) (rest : List RampPoint) :
    extendPts (p :: rest) =
      (if 0 < p.x then [(⟨0, p.y⟩ : RampPoint)] else []) ++ (p :: rest) ++
        (if ((p :: rest).getLastD p).x < 1
          then [(⟨1, ((p :: rest).getLastD p).y⟩ : RampPoint)] else []) :=
  rfl

/-- The flat-extended sequence of a nonempty list has at least two
points. -/
theorem extendPts_length (p : RampPoint) (rest : List RampPoint) :
    2 ≤ (extendPts (p :: rest)).length := by
  rw [extendPts_cons]
  by_cases h2 : ((p :: rest).getLastD p).x < 1
  · rw [if_pos h2]
    by_cases h1 : 0 < p.x
    · rw [if_pos h1]; simp
    · rw [if_neg h1]; simp
  · rw [if_neg h2]
    by_cases h1 : 0 < p.x
    · rw [if_pos h1]; simp
    · rw [if_neg h1]
      cases rest with
      | nil =>
        exfalso
        have hl : ([p] : List RampPoint).getLastD p = p := rfl
        rw [hl] at h2
        push_neg at h1 h2
        linarith
      | cons q rs => simp

/-- The last point of the flat-extended sequence sits at x equal to one,
provided every input x is at most one. -/
theorem extendPts_last_x (p : RampPoint) (rest : List RampPoint) (d : RampPoint)
    (hx : ∀ q ∈ p :: rest, q.x ≤ 1) :
    ((extendPts (p :: rest)).getD ((extendPts (p :: rest)).length - 1) d).x = 1 := by
  have hm := getLastD_mem_cons rest p
  have hle : ((p :: rest).getLastD p).x ≤ 1 := hx _ hm
  rw [extendPts_cons]
  by_cases h2 : ((p :: rest).getLastD p).x < 1
  · rw [if_pos h2]
    have hlen :
        ((if 0 < p.x then [(⟨0, p.y⟩ : RampPoint)] else []) ++ (p :: rest) ++
            [(⟨1, ((p :: rest).getLastD p).y⟩ : RampPoint)]).length - 1 =
          ((if 0 < p.x then [(⟨0, p.y⟩ : RampPoint)] else []) ++ (p :: rest)).length := by
      simp
    rw [hlen, getD_append_last]
  · rw [if_neg h2, List.append_nil]
    have h1 : ((p :: rest).getLastD p).x = 1 := le_antisymm hle (not_lt.mp h2)
    by_cases h0 : 0 < p.x
    · rw [if_pos h0]
      have hlen : (([(⟨0, p.y⟩ : RampPoint)]) ++ (p :: rest)).length - 1 = rest.length + 1 := by
        simp
      rw [hlen, List.getD_append_right _ _ _ _ (by simp)]
      have hidx : rest.length + 1 - ([(⟨0, p.y⟩ : RampPoint)]).length = rest.length := by
        simp
      rw [hidx, getD_last_cons rest p d, h1]
    · rw [if_neg h0, List.nil_append]
      have hlen : (p :: rest).length - 1 = rest.length := by simp
      rw [hlen, getD_last_cons rest p d, h1]

/-- Every point of the flat-extended sequence has its y inside the unit
interval, provided every input y does. -/
theorem extendPts_y_bounds (p : RampPoint) (rest : List RampPoint)
    (hy : ∀ q ∈ p :: rest, 0 ≤ q.y ∧ q.y ≤ 1) :
    ∀ q ∈ extendPts (p :: rest), 0 ≤ q.y ∧ q.y ≤ 1 := by
  have hm := getLastD_mem_cons rest p
  intro q hq
  rw [extendPts_cons] at hq
  rcases List.mem_append.mp hq with hq1 | hq2
  · rcases List.mem_append.mp hq1 with hpre | hcore
    · by_cases h0 : 0 < p.x
      · rw [if_pos h0] at hpre
        simp only [List.mem_singleton] at hpre
        rw [hpre]
        exact ⟨(hy p (List.mem_cons_self p rest)).1, (hy p (List.mem_cons_self p rest)).2⟩
      · rw [if_neg h0] at hpre
        simp at hpre
    · exact hy q hcore
  · by_cases h2 : ((p :: rest).getLastD p).x < 1
    · rw [if_pos h2] at hq2
      simp only [List.mem_singleton] at hq2
      rw [hq2]
      exact ⟨(hy _ hm).1, (hy _ hm).2⟩
    · rw [if_neg h2] at hq2
      simp at hq2

/-- Membership in the stable sort is membership in the input. -/
theorem mem_sortByX (q : RampPoint) (l : List RampPoint) :
    q ∈ sortByX l ↔ q ∈ l :=
  (List.perm_insertionSort (fun a b => a.x ≤ b.x) l).mem_iff

/-- At the scanned bracketing segment, the source's loop body (or-one span
fallback, clamp before scaling) computes exactly the claim's description
(zero ratio on zero-width segments, clamp after rounding): the two differ
syntactically precisely on degenerate segments, which the scan only ever
reaches with t at or before the segment, forcing both ratios to zero. -/
theorem entryAtCode_eq_claim (norm : List RampPoint) (t : ℚ)
    (hn : 2 ≤ norm.length)
    (hlast : ∀ d : RampPoint, (norm.getD (norm.length - 1) d).x = 1)
    (hy : ∀ q ∈ norm, 0 ≤ q.y ∧ q.y ≤ 1)
    (ht : t ≤ 1) :
    entryAtCode norm t (findSegment norm t) = entryAtClaim norm t := by
  have hb : findSegment norm t + 2 ≤ norm.length :=
    advanceSegment_le norm t 0 (by omega)
  have hstop : ¬ advCond norm t (findSegment norm t) := advanceSegment_stop norm t 0
  simp only [entryAtCode, entryAtClaim]
  set s := findSegment norm t with hs
  have hsl : s < norm.length := by omega
  have hsr : s + 1 < norm.length := by omega
  set left := norm.getD s default with hleft
  set right := norm.getD (s + 1) left with hright
  have hlmem : left ∈ norm := by
    rw [hleft, List.getD_eq_getElem _ _ hsl]
    exact List.getElem_mem hsl
  have hrmem : right ∈ norm := by
    rw [hright, List.getD_eq_getElem _ _ hsr]
    exact List.getElem_mem hsr
  have hly := hy left hlmem
  have hry := hy right hrmem
  by_cases hxx : right.x = left.x
  · have hts : t ≤ left.x := by
      unfold advCond at hstop
      push_neg at hstop
      rcases Nat.lt_or_ge (s + 2) norm.length with hlt | hge
      · have h3 := hstop hlt
        have hdd : norm.getD (s + 1) left = norm.getD (s + 1) default := by
          rw [List.getD_eq_getElem _ _ hsr, List.getD_eq_getElem _ _ hsr]
        rw [← hxx, hright, hdd]
        exact h3
      · have hidx : s + 1 = norm.length - 1 := by omega
        have h4 : right.x = 1 := by
          rw [hright, hidx]
          exact hlast left
        rw [← hxx, h4]
        exact ht
    have hsub : right.x - left.x = 0 := by rw [hxx]; ring
    rw [if_pos hsub, if_pos hxx]
    have hfrac : clampQ ((t - left.x) / 1) 0 1 = 0 := by
      rw [div_one]
      exact clampQ_nonpos _ (by linarith)
    rw [hfrac]
    have hval : clampQ (left.y + (right.y - left.y) * 0) 0 1 = left.y := by
      rw [mul_zero, add_zero]
      exact clampQ_eq_self _ hly.1 hly.2
    rw [hval, mul_zero, add_zero]
    have hbyte := jsRound_byte left.y hly.1 hly.2
    rw [clamp255_eq_self _ hbyte.1 hbyte.2]
  · have hsub : ¬ (right.x - left.x = 0) := fun hc => hxx (by linarith [sub_eq_zero.mp hc])
    rw [if_neg hsub, if_neg hxx]
    have hfrac0 : 0 ≤ clampQ ((t - left.x) / (right.x - left.x)) 0 1 :=
      le_clampQ _ _ _ (by norm_num)
    have hfrac1 : clampQ ((t - left.x) / (right.x - left.x)) 0 1 ≤ 1 := clampQ_le _ _ _
    have hval := lerp_mem left.y right.y _ hly.1 hly.2 hry.1 hry.2 hfrac0 hfrac1
    rw [clampQ_eq_self _ hval.1 hval.2]
    have hbyte := jsRound_byte _ hval.1 hval.2
    rw [clamp255_eq_self _ hbyte.1 hbyte.2]

/-- There are exactly size sample positions. -/
theorem tList_length (size : ℕ) : (tList size).length = size := by
  rw [tList, List.length_map, List.length_range]

/-- The sample positions are nondecreasing. -/
theorem tList_sorted (size : ℕ) : List.Sorted (· ≤ ·) (tList size) := by
  rcases Nat.lt_or_ge size 2 with hs | hs
  · interval_cases size
    · rw [tList]
      exact List.sorted_nil
    · rw [tList]
      simp
  · rw [tList]
    have hden : (0 : ℚ) < (size : ℚ) - 1 := by
      have h2 : (2 : ℚ) ≤ (size : ℚ) := by exact_mod_cast hs
      linarith
    show List.Pairwise _ _
    refine List.Pairwise.map _ ?_ (List.pairwise_lt_range size)
    intro a b hab
    have hab2 : (a : ℚ) ≤ (b : ℚ) := by exact_mod_cast hab.le
    exact (div_le_div_iff_of_pos_right hden).mpr hab2

/-- Every sample position is at most one. -/
theorem tList_le_one (size : ℕ) : ∀ t ∈ tList size, t ≤ 1 := by
  intro t ht
  rw [tList, List.mem_map] at ht
  obtain ⟨i, hi, rfl⟩ := ht
  rw [List.mem_range] at hi
  rcases Nat.lt_or_ge size 2 with hs | hs
  · have h1 : size = 1 := by omega
    subst h1
    have h0 : i = 0 := by omega
    subst h0
    norm_num
  · have hden : (0 : ℚ) < (size : ℚ) - 1 := by
      have h2 : (2 : ℚ) ≤ (size : ℚ) := by exact_mod_cast hs
      linarith
    rw [div_le_one hden]
    have h3 : i + 1 ≤ size := hi
    have h4 : (i : ℚ) + 1 ≤ (size : ℚ) := by exact_mod_cast h3
    linarith

/-- The sampling loop yields one entry per sample position. -/
theorem genAux_length (norm : List RampPoint) :
    ∀ (ts : List ℚ) (s : ℕ), (genAux norm ts s).length = ts.length := by
  intro ts
  induction ts with
  | nil => intro s; simp [genAux]
  | cons t ts ih => intro s; simp [genAux, ih]

/-- Every entry the sampling loop yields is an output of the loop body. -/
theorem genAux_mem (norm : List RampPoint) :
    ∀ (ts : List ℚ) (s : ℕ) (e : ℤ), e ∈ genAux norm ts s →
      ∃ t s1, e = entryAtCode norm t s1 := by
  intro ts
  induction ts with
  | nil => intro s e he; simp [genAux] at he
  | cons t ts ih =>
    intro s e he
    simp only [genAux, List.mem_cons] at he
    rcases he with he | he
    · exact ⟨t, advanceSegment norm t s, he⟩
    · exact ih _ e he

/-- Every output of the loop body is a byte. -/
theorem entryAtCode_bounds (norm : List RampPoint) (t : ℚ) (s : ℕ) :
    0 ≤ entryAtCode norm t s ∧ entryAtCode norm t s ≤ 255 := by
  simp only [entryAtCode]
  exact jsRound_byte _ (le_clampQ _ _ _ (by norm_num)) (clampQ_le _ _ _)

/-- Every point produced by clamping then stable-sorting has both
coordinates inside the unit interval. -/
theorem sortByX_clamp_bounds (points : List RampPoint) :
    ∀ q ∈ sortByX (points.map clampPt),
      (0 ≤ q.x ∧ q.x ≤ 1) ∧ (0 ≤ q.y ∧ q.y ≤ 1) := by
  intro q hq
  rw [mem_sortByX] at hq
  obtain ⟨q0, _, rfl⟩ := List.mem_map.mp hq
  refine ⟨⟨?_, ?_⟩, ?_, ?_⟩
  · exact le_clampQ _ _ _ (by norm_num)
  · exact clampQ_le _ _ _
  · exact le_clampQ _ _ _ (by norm_num)
  · exact clampQ_le _ _ _

/-- C6: for every nonempty input, the LUT computed by the source's
stateful loop (monotone segment cursor, or-one span fallback, clamp before
scaling) coincides entry by entry with the claim's description: bracketing
pair of the clamped, sorted, flat-extended sequence at t equal to the index
over 255, linear interpolation by the clamped horizontal ratio with
degenerate zero-width segments treated as ratio zero, rounded to the
nearest integer and clamped to the byte range. -/
theorem rampTexture_matches_claim_sampling (points : List RampPoint)
    (h : points ≠ []) :
    generateRampTextureData points RAMP_RESOLUTION =
      rampSpecClaim points RAMP_RESOLUTION := by
  have hne : points.isEmpty = false := by
    cases points with
    | nil => exact absurd rfl h
    | cons a l => rfl
  rw [generateRampTextureData, rampSpecClaim, hne]
  simp only [Bool.false_eq_true, if_false]
  have hxy := sortByX_clamp_bounds points
  obtain ⟨p, rest, hpr⟩ : ∃ p rest, sortByX (points.map clampPt) = p :: rest := by
    cases hsp : sortByX (points.map clampPt) with
    | nil =>
      exfalso
      have hlen := (List.perm_insertionSort (fun a b => a.x ≤ b.x) (points.map clampPt)).length_eq
      rw [show sortByX (points.map clampPt) = List.insertionSort (fun a b => a.x ≤ b.x) (points.map clampPt) from rfl] at hsp
      rw [hsp] at hlen
      simp at hlen
      exact h (List.length_eq_zero.mp hlen.symm)
    | cons p rest => exact ⟨p, rest, rfl⟩
  rw [hpr]
  have hn2 : 2 ≤ (extendPts (p :: rest)).length := extendPts_length p rest
  have hlast : ∀ d : RampPoint,
      ((extendPts (p :: rest)).getD ((extendPts (p :: rest)).length - 1) d).x = 1 := by
    intro d
    apply extendPts_last_x
    intro q hq
    exact ((hxy q (hpr ▸ hq)).1).2
  have hy : ∀ q ∈ extendPts (p :: rest), 0 ≤ q.y ∧ q.y ≤ 1 := by
    apply extendPts_y_bounds
    intro q hq
    exact (hxy q (hpr ▸ hq)).2
  rw [genAux_eq_map (extendPts (p :: rest)) (tList RAMP_RESOLUTION) 0
    (tList_sorted _) (fun t _ => Nat.zero_le _)]
  apply List.map_congr_left
  intro t ht
  exact entryAtCode_eq_claim _ t hn2 hlast hy (tList_le_one _ t ht)

/-- C3: for every input collection of control points (empty, unsorted,
with duplicate x values, or with coordinates outside the unit interval) the
LUT returned by the ramp sampler at resolution 256 has length exactly 256
and every entry is a byte between 0 and 255. -/
theorem rampTexture_length_and_byte_range (points : List RampPoint) :
    (generateRampTextureData points RAMP_RESOLUTION).length = RAMP_RESOLUTION ∧
      ∀ e ∈ generateRampTextureData points RAMP_RESOLUTION, 0 ≤ e ∧ e ≤ 255 := by
  cases points with
  | nil =>
    constructor
    · simp [generateRampTextureData]
    · intro e he
      simp [generateRampTextureData] at he
      rw [he.2]
      norm_num
  | cons p rest =>
    have hne : (p :: rest).isEmpty = false := rfl
    rw [generateRampTextureData, hne]
    simp only [Bool.false_eq_true, if_false]
    constructor
    · rw [genAux_length, tList_length]
    · intro e he
      obtain ⟨t, s1, rfl⟩ := genAux_mem _ _ _ e he
      exact entryAtCode_bounds _ _ _

/-- Witness for the previous theorem, instantiated at the empty input and
at the entry value 127 that input produces. -/
theorem rampTexture_length_and_byte_range_witness :
    (generateRampTextureData [] RAMP_RESOLUTION).length = RAMP_RESOLUTION ∧
      ((0 : ℤ) ≤ 127 ∧ (127 : ℤ) ≤ 255) :=
  ⟨(rampTexture_length_and_byte_range []).1,
    (rampTexture_length_and_byte_range []).2 127 (by
      rw [show generateRampTextureData [] RAMP_RESOLUTION
        = List.replicate RAMP_RESOLUTION 127 from rfl]
      exact List.mem_replicate.mpr ⟨by norm_num [RAMP_RESOLUTION], rfl⟩)⟩

/-- Stable sorting by x is invariant under permutation of the input
whenever the x keys are pairwise distinct. -/
theorem sortByX_eq_of_perm (l1 l2 : List RampPoint)
    (hp : List.Perm l1 l2)
    (hd : List.Pairwise (fun a b => a.x ≠ b.x) l1) :
    sortByX l1 = sortByX l2 := by
  letI htot : IsTotal RampPoint (fun a b : RampPoint => a.x ≤ b.x) :=
    ⟨fun a b => le_total a.x b.x⟩
  letI htr : IsTrans RampPoint (fun a b : RampPoint => a.x ≤ b.x) :=
    ⟨fun _ _ _ h1 h2 => le_trans h1 h2⟩
  letI hanti : IsAntisymm RampPoint (fun a b : RampPoint => a.x < b.x) :=
    ⟨fun a b h1 h2 => absurd (lt_trans h1 h2) (lt_irrefl _)⟩
  have hperm1 : List.Perm (sortByX l1) l1 := List.perm_insertionSort _ _
  have hperm2 : List.Perm (sortByX l2) l2 := List.perm_insertionSort _ _
  have hps : List.Perm (sortByX l1) (sortByX l2) := hperm1.trans (hp.trans hperm2.symm)
  have hd1 : List.Pairwise (fun a b => a.x ≠ b.x) (sortByX l1) :=
    (hperm1.pairwise_iff (fun h heq => h heq.symm)).mpr hd
  have hd2 : List.Pairwise (fun a b => a.x ≠ b.x) (sortByX l2) :=
    (hps.pairwise_iff (fun h heq => h heq.symm)).mp hd1
  have hs1 : List.Sorted (fun a b : RampPoint => a.x ≤ b.x) (sortByX l1) :=
    List.sorted_insertionSort _ _
  have hs2 : List.Sorted (fun a b : RampPoint => a.x ≤ b.x) (sortByX l2) :=
    List.sorted_insertionSort _ _
  have hlt1 : List.Pairwise (fun a b : RampPoint => a.x < b.x) (sortByX l1) :=
    (hs1.and hd1).imp (fun hab => lt_of_le_of_ne hab.1 hab.2)
  have hlt2 : List.Pairwise (fun a b : RampPoint => a.x < b.x) (sortByX l2) :=
    (hs2.and hd2).imp (fun hab => lt_of_le_of_ne hab.1 hab.2)
  exact List.eq_of_perm_of_sorted hps hlt1 hlt2

/-- C5 (amended): the ramp sampler is a pure function of its input list,
and it is invariant under permutation of the input whenever the clamped x
coordinates are pairwise distinct; with duplicate x values the stable sort
preserves input order among equal keys, so permutations can reorder them
(see the counterexample below). -/
theorem ramp_perm_distinct_eq (l1 l2 : List RampPoint)
    (hp : List.Perm l1 l2)
    (hd : List.Pairwise (fun a b => (clampPt a).x ≠ (clampPt b).x) l1) :
    generateRampTextureData l1 RAMP_RESOLUTION =
      generateRampTextureData l2 RAMP_RESOLUTION := by
  have hmap : List.Perm (l1.map clampPt) (l2.map clampPt) := hp.map clampPt
  have hd2 : List.Pairwise (fun a b => a.x ≠ b.x) (l1.map clampPt) := by
    rw [List.pairwise_map]
    exact hd
  have hsort : sortByX (l1.map clampPt) = sortByX (l2.map clampPt) :=
    sortByX_eq_of_perm _ _ hmap hd2
  cases l1 with
  | nil =>
    cases l2 with
    | nil => rfl
    | cons b m =>
      exfalso
      have hl := hp.length_eq
      simp at hl
  | cons a l =>
    cases l2 with
    | nil =>
      exfalso
      have hl := hp.length_eq
      simp at hl
    | cons b m =>
      have h1 : (a :: l).isEmpty = false := rfl
      have h2 : (b :: m).isEmpty = false := rfl
      rw [generateRampTextureData, generateRampTextureData, h1, h2]
      simp only [Bool.false_eq_true, if_false]
      rw [hsort]

/-- Witness for the previous theorem: swapping two points with distinct x
coordinates leaves the LUT byte-identical. -/
theorem ramp_perm_distinct_eq_witness :
    List.Perm [(⟨1, 0⟩ : RampPoint), ⟨0, 1⟩] [(⟨0, 1⟩ : RampPoint), ⟨1, 0⟩] ∧
      generateRampTextureData [(⟨1, 0⟩ : RampPoint), ⟨0, 1⟩] RAMP_RESOLUTION =
        generateRampTextureData [(⟨0, 1⟩ : RampPoint), ⟨1, 0⟩] RAMP_RESOLUTION :=
  ⟨List.Perm.swap _ _ _,
    ramp_perm_distinct_eq _ _ (List.Perm.swap _ _ _) (by
      constructor
      · intro b hb
        simp only [List.mem_singleton] at hb
        rw [hb]
        norm_num [clampPt, clampQ]
      · simp)⟩

/-- C5 (counterexample): the two orderings of the same multiset of points
with duplicate x values produce different LUTs, because the stable sort
keeps input order among the equal keys; already the first LUT entry
differs (0 versus 255). -/
theorem ramp_perm_counterexample :
    List.Perm [(⟨1/2, 0⟩ : RampPoint), ⟨1/2, 1⟩] [(⟨1/2, 1⟩ : RampPoint), ⟨1/2, 0⟩] ∧
      generateRampTextureData [(⟨1/2, 0⟩ : RampPoint), ⟨1/2, 1⟩] RAMP_RESOLUTION ≠
        generateRampTextureData [(⟨1/2, 1⟩ : RampPoint), ⟨1/2, 0⟩] RAMP_RESOLUTION := by
  constructor
  · exact List.Perm.swap _ _ _
  · have hr : List.range RAMP_RESOLUTION = 0 :: List.map Nat.succ (List.range 255) := by
      rw [show RAMP_RESOLUTION = 255 + 1 from rfl, List.range_succ_eq_map]
    have ht0 : ((0 : ℕ) : ℚ) / ((RAMP_RESOLUTION : ℚ) - 1) = 0 := by norm_num
    have hfl0 : jsRound 0 = 0 := by
      rw [jsRound, Int.floor_eq_iff]
      norm_num
    have hfl255 : jsRound 255 = 255 := by
      rw [jsRound, Int.floor_eq_iff]
      norm_num
    have ha : (generateRampTextureData [(⟨1/2, 0⟩ : RampPoint), ⟨1/2, 1⟩]
        RAMP_RESOLUTION).getD 0 0 = 0 := by
      have hclamp : List.map clampPt [(⟨1/2, 0⟩ : RampPoint), ⟨1/2, 1⟩]
          = [(⟨1/2, 0⟩ : RampPoint), ⟨1/2, 1⟩] := by
        norm_num [clampPt, clampQ]
      have hsort : sortByX [(⟨1/2, 0⟩ : RampPoint), ⟨1/2, 1⟩]
          = [(⟨1/2, 0⟩ : RampPoint), ⟨1/2, 1⟩] := by
        norm_num [sortByX, List.insertionSort, List.orderedInsert]
      have hext : extendPts [(⟨1/2, 0⟩ : RampPoint), ⟨1/2, 1⟩]
          = [⟨0, 0⟩, ⟨1/2, 0⟩, ⟨1/2, 1⟩, ⟨1, 1⟩] := by
        norm_num [extendPts, List.getLastD]
      have hadv : advanceSegment [(⟨0, 0⟩ : RampPoint), ⟨1/2, 0⟩, ⟨1/2, 1⟩, ⟨1, 1⟩] 0 0 = 0 := by
        rw [advanceSegment,
          show ([(⟨0, 0⟩ : RampPoint), ⟨1/2, 0⟩, ⟨1/2, 1⟩, ⟨1, 1⟩]).length = 4 from rfl]
        norm_num [advanceAux, advCond]
      have hentry : entryAtCode [(⟨0, 0⟩ : RampPoint), ⟨1/2, 0⟩, ⟨1/2, 1⟩, ⟨1, 1⟩] 0 0 = 0 := by
        norm_num [entryAtCode, clampQ, hfl0]
      rw [generateRampTextureData]
      rw [if_neg (by simp : ¬ ([(⟨1/2, 0⟩ : RampPoint), ⟨1/2, 1⟩].isEmpty = true))]
      rw [hclamp, hsort, hext, tList, hr, List.map_cons, ht0, genAux]
      simp only [hadv, hentry, List.getD_cons_zero]
    have hb : (generateRampTextureData [(⟨1/2, 1⟩ : RampPoint), ⟨1/2, 0⟩]
        RAMP_RESOLUTION).getD 0 0 = 255 := by
      have hclamp : List.map clampPt [(⟨1/2, 1⟩ : RampPoint), ⟨1/2, 0⟩]
          = [(⟨1/2, 1⟩ : RampPoint), ⟨1/2, 0⟩] := by
        norm_num [clampPt, clampQ]
      have hsort : sortByX [(⟨1/2, 1⟩ : RampPoint), ⟨1/2, 0⟩]
          = [(⟨1/2, 1⟩ : RampPoint), ⟨1/2, 0⟩] := by
        norm_num [sortByX, List.insertionSort, List.orderedInsert]
      have hext : extendPts [(⟨1/2, 1⟩ : RampPoint), ⟨1/2, 0⟩]
          = [⟨0, 1⟩, ⟨1/2, 1⟩, ⟨1/2, 0⟩, ⟨1, 0⟩] := by
        norm_num [extendPts, List.getLastD]
      have hadv : advanceSegment [(⟨0, 1⟩ : RampPoint), ⟨1/2, 1⟩, ⟨1/2, 0⟩, ⟨1, 0⟩] 0 0 = 0 := by
        rw [advanceSegment,
          show ([(⟨0, 1⟩ : RampPoint), ⟨1/2, 1⟩, ⟨1/2, 0⟩, ⟨1, 0⟩]).length = 4 from rfl]
        norm_num [advanceAux, advCond]
      have hentry : entryAtCode [(⟨0, 1⟩ : RampPoint), ⟨1/2, 1⟩, ⟨1/2, 0⟩, ⟨1, 0⟩] 0 0 = 255 := by
        norm_num [entryAtCode, clampQ, hfl255]
      rw [generateRampTextureData]
      rw [if_neg (by simp : ¬ ([(⟨1/2, 1⟩ : RampPoint), ⟨1/2, 0⟩].isEmpty = true))]
      rw [hclamp, hsort, hext, tList, hr, List.map_cons, ht0, genAux]
      simp only [hadv, hentry, List.getD_cons_zero]
    intro heq
    rw [heq] at ha
    rw [ha] at hb
    exact absurd hb (by norm_num)

/-- Witness for the claim-versus-code sampling equivalence at a concrete
single-point input. -/
theorem rampTexture_matches_claim_sampling_witness :
    ([(⟨1/2, 1⟩ : RampPoint)] : List RampPoint) ≠ [] ∧
      generateRampTextureData [(⟨1/2, 1⟩ : RampPoint)] RAMP_RESOLUTION =
        rampSpecClaim [(⟨1/2, 1⟩ : RampPoint)] RAMP_RESOLUTION :=
  ⟨by simp, rampTexture_matches_claim_sampling _ (by simp)⟩

/-- A helper to evaluate the JS rounding at concrete values. -/
theorem jsRound_eq (q : ℚ) (z : ℤ) (h1 : (z : ℚ) ≤ q + 1 / 2)
    (h2 : q + 1 / 2 < z + 1) : jsRound q = z := by
  rw [jsRound, Int.floor_eq_iff]
  exact ⟨h1, h2⟩

/-- C7 (counterexample): a render-loop instance whose first presentation
tick fires at timestamp 5000 pushes the value 5 to the time uniform, not
the zero the claim's per-instance elapsed-seconds reading demands. -/
theorem render_time_not_zero_based :
    renderLoopTimes [5000] = [5] ∧ (5 : ℚ) ≠ (5000 - 5000) / 1000 := by
  constructor
  · rw [renderLoopTimes, List.map_cons, List.map_nil, renderTickTime]
    norm_num
  · norm_num

/-- C7 (amended): the value pushed to the time uniform on each render tick
is the host presentation timestamp times 0.001, that is, seconds on the
shared presentation clock since the time origin; across nondecreasing
ticks the pushed values are nondecreasing, and the value is not rebased
per loop instance, so a restart does not begin at zero. -/
theorem render_time_is_global_clock (ticks : List ℚ)
    (hmono : List.Sorted (· ≤ ·) ticks) :
    renderLoopTimes ticks = ticks.map (fun now => now / 1000) ∧
      List.Sorted (· ≤ ·) (renderLoopTimes ticks) := by
  constructor
  · apply List.map_congr_left
    intro a _
    rw [renderTickTime]
    ring
  · rw [renderLoopTimes]
    show List.Pairwise _ _
    refine List.Pairwise.map _ ?_ hmono
    intro a b hab
    rw [renderTickTime, renderTickTime]
    linarith

/-- Witness for the amended render-time theorem at two concrete ticks. -/
theorem render_time_is_global_clock_witness :
    renderLoopTimes [1000, 2000] = [1, 2] ∧
      List.Sorted (· ≤ ·) (renderLoopTimes [1000, 2000]) := by
  have hmono : List.Sorted (· ≤ ·) ([1000, 2000] : List ℚ) := by
    norm_num [List.sorted_cons]
  have h := render_time_is_global_clock [1000, 2000] hmono
  refine ⟨h.1.trans ?_, h.2⟩
  norm_num

/-- C2: captureGif sanitizes rather than rejects: the effective duration is
the maximum of one half and the requested duration, the effective fps lies
in one to sixty, the effective scale lies in one tenth to one, and the
capture pipeline behaves identically for fps 1000 and fps 60, for scale 5
and scale 1, and for duration 0 and duration one half. -/
theorem captureGif_sanitizes_inputs (w h : ℕ) (duration fps scale : ℚ)
    (ticks : List ℚ) :
    (mkGifParams duration fps scale).sDuration = max (1 / 2) duration ∧
      1 ≤ (mkGifParams duration fps scale).sFps ∧
      (mkGifParams duration fps scale).sFps ≤ 60 ∧
      (1 / 10 : ℚ) ≤ (mkGifParams duration fps scale).sScale ∧
      (mkGifParams duration fps scale).sScale ≤ 1 ∧
      mkGifParams duration 1000 scale = mkGifParams duration 60 scale ∧
      mkGifParams duration fps 5 = mkGifParams duration fps 1 ∧
      mkGifParams 0 fps scale = mkGifParams (1 / 2) fps scale ∧
      captureGifModel w h duration 1000 scale ticks =
        captureGifModel w h duration 60 scale ticks ∧
      captureGifModel w h duration fps 5 ticks =
        captureGifModel w h duration fps 1 ticks ∧
      captureGifModel w h 0 fps scale ticks =
        captureGifModel w h (1 / 2) fps scale ticks := by
  have h1000 : jsRound 1000 = 1000 := jsRound_eq _ _ (by norm_num) (by norm_num)
  have h60 : jsRound 60 = 60 := jsRound_eq _ _ (by norm_num) (by norm_num)
  have hfps : mkGifParams duration 1000 scale = mkGifParams duration 60 scale := by
    have hm : min (60 : ℚ) (max 1 (((1000 : ℤ) : ℚ))) = min 60 (max 1 (((60 : ℤ) : ℚ))) := by
      push_cast
      norm_num
    rw [mkGifParams, mkGifParams, h1000, h60, hm]
  have hscale : mkGifParams duration fps 5 = mkGifParams duration fps 1 := by
    have hm : min (1 : ℚ) (max (1 / 10) 5) = min 1 (max (1 / 10) 1) := by norm_num
    rw [mkGifParams, mkGifParams, hm]
  have hdur : mkGifParams 0 fps scale = mkGifParams (1 / 2) fps scale := by
    have hm : max (1 / 2 : ℚ) 0 = max (1 / 2 : ℚ) (1 / 2) := by norm_num
    rw [mkGifParams, mkGifParams, hm]
  refine ⟨rfl, ?_, ?_, ?_, ?_, hfps, hscale, hdur, ?_, ?_, ?_⟩
  · exact le_min (by norm_num) (le_max_left 1 _)
  · exact min_le_left _ _
  · exact le_min (by norm_num) (le_max_left _ _)
  · exact min_le_left _ _
  · rw [captureGifModel, captureGifModel, hfps]
  · rw [captureGifModel, captureGifModel, hscale]
  · rw [captureGifModel, captureGifModel, hdur]

/-- C10: the effective frame rate is an integer: fps is rounded to the
nearest integer and then clamped into one to sixty, and both the frame
interval and the frame count are derived from that integer; in particular
fps 12.5 behaves identically to fps 13. -/
theorem captureGif_fps_integral (duration fps scale : ℚ) :
    (∃ n : ℤ, 1 ≤ n ∧ n ≤ 60 ∧
      (mkGifParams duration fps scale).sFps = (n : ℚ) ∧
      (mkGifParams duration fps scale).frameIntervalMs = 1000 / (n : ℚ) ∧
      (mkGifParams duration fps scale).frameCount =
        max 1 (jsRound ((mkGifParams duration fps scale).sDuration * (n : ℚ))).toNat) ∧
      mkGifParams duration (12.5 : ℚ) scale = mkGifParams duration 13 scale := by
  constructor
  · refine ⟨min 60 (max 1 (jsRound fps)), ?_, ?_, ?_, ?_, ?_⟩
    · exact le_min (by norm_num) (le_max_left 1 _)
    · exact min_le_left _ _
    · rw [mkGifParams]
      push_cast
      rfl
    · rw [mkGifParams]
      push_cast
      rfl
    · rw [mkGifParams]
      push_cast
      rfl
  · have h125 : jsRound (12.5 : ℚ) = 13 := jsRound_eq _ _ (by norm_num) (by norm_num)
    have h13 : jsRound (13 : ℚ) = 13 := jsRound_eq _ _ (by norm_num) (by norm_num)
    rw [mkGifParams, mkGifParams, h125, h13]

/-- C9: the finalized-encoding check of captureGif never returns an empty
byte buffer as success: a missing or zero-length encoding yields the
failure, and any successful result is nonempty. -/
theorem captureGif_empty_encoding_fails :
    (∀ (b : Option (List ℕ)) (r : List ℕ), finalizeGif b = Except.ok r → r.length ≠ 0) ∧
      (∀ bs : List ℕ, bs.length = 0 →
        finalizeGif (some bs) = Except.error "Generated GIF was empty") ∧
      finalizeGif none = Except.error "Generated GIF was empty" := by
  refine ⟨?_, ?_, rfl⟩
  · intro b r hok
    cases b with
    | none => exact absurd hok (by rw [finalizeGif]; intro hc; cases hc)
    | some bs =>
      rw [finalizeGif] at hok
      by_cases hz : bs.length = 0
      · rw [if_pos hz] at hok
        cases hok
      · rw [if_neg hz] at hok
        cases hok
        exact hz
  · intro bs hz
    rw [finalizeGif, if_pos hz]

/-- Witness for the finalized-encoding check at a concrete nonempty
buffer. -/
theorem captureGif_empty_encoding_fails_witness :
    finalizeGif (some [7, 7]) = Except.ok [7, 7] ∧ ([7, 7] : List ℕ).length ≠ 0 :=
  ⟨rfl, captureGif_empty_encoding_fails.1 (some [7, 7]) [7, 7] rfl⟩

/-- The derived frame count is always at least one. -/
theorem frameCount_pos (duration fps scale : ℚ) :
    1 ≤ (mkGifParams duration fps scale).frameCount :=
  le_max_left 1 _

/-- The wall-clock stop bound is strictly positive: the sanitized duration
is at least half a second and the frame interval is positive. -/
theorem capBound_pos (duration fps scale : ℚ) :
    0 < capBound (mkGifParams duration fps scale) := by
  rw [capBound, mkGifParams]
  have hfps : (1 : ℚ) ≤ min 60 (max 1 ((jsRound fps : ℤ) : ℚ)) :=
    le_min (by norm_num) (le_max_left 1 _)
  have hpos : (0 : ℚ) < 1000 / min 60 (max 1 ((jsRound fps : ℤ) : ℚ)) :=
    div_pos (by norm_num) (by linarith)
  have hdur : (1 / 2 : ℚ) ≤ max (1 / 2) duration := le_max_left _ _
  dsimp only
  nlinarith

/-- One tick captures at most one frame: the capture count and the list of
appended frames each grow by at most one. -/
theorem capStep_one_capture (p : GifParams) (tw th : ℕ) (s : CapState) (now : ℚ) :
    ((capStep p tw th s now).1).captured ≤ s.captured + 1 ∧
      ((capStep p tw th s now).1).frames.length ≤ s.frames.length + 1 := by
  simp only [capStep]
  split_ifs <;> simp

/-- One tick preserves the loop invariant: at least one frame captured, at
most the frame count captured, and the start timestamp unchanged. -/
theorem capStep_inv (p : GifParams) (tw th : ℕ) (t0 now : ℚ) (s : CapState)
    (hinv : 1 ≤ s.captured ∧ s.captured ≤ p.frameCount ∧ s.startTime = t0) :
    1 ≤ ((capStep p tw th s now).1).captured ∧
      ((capStep p tw th s now).1).captured ≤ p.frameCount ∧
      ((capStep p tw th s now).1).startTime = t0 := by
  obtain ⟨h1, h2, h3⟩ := hinv
  simp only [capStep]
  split_ifs <;> simp_all <;> omega

/-- The first tick always captures: from the initial state the loop sets
its start and due instant to the tick timestamp and captures one frame
carrying the loop-forever marker. -/
theorem capStep_init (p : GifParams) (tw th : ℕ) (now : ℚ)
    (hfc : 1 ≤ p.frameCount) :
    (capStep p tw th capInit now).1 =
      ⟨1, now, now + p.frameIntervalMs, [⟨tw, th, p.delayMs, some 0⟩]⟩ := by
  simp only [capStep, capInit]
  split_ifs with h1 h2 h3 <;> first | omega | simp_all

/-- A tick whose timestamp is at or past the loop start plus the stop
bound resolves the promise. -/
theorem capStep_late (p : GifParams) (tw th : ℕ) (t0 now : ℚ) (s : CapState)
    (hinv : 1 ≤ s.captured ∧ s.captured ≤ p.frameCount ∧ s.startTime = t0)
    (hlate : capBound p ≤ now - t0) :
    (capStep p tw th s now).2 = true := by
  obtain ⟨h1, h2, h3⟩ := hinv
  simp only [capStep]
  split_ifs <;> simp_all <;> omega

/-- A resolving tick resolves for one of the two stop causes: the frame
count is reached, or the elapsed time since the loop start has reached the
stop bound. -/
theorem capStep_true_cause (p : GifParams) (tw th : ℕ) (t0 now : ℚ) (s : CapState)
    (hs : 1 ≤ s.captured) (hst : s.startTime = t0)
    (h : (capStep p tw th s now).2 = true) :
    p.frameCount ≤ ((capStep p tw th s now).1).captured ∨ capBound p ≤ now - t0 := by
  simp only [capStep] at h ⊢
  split_ifs at h ⊢ <;> simp_all <;> omega

/-- If the very first tick resolves, it does so because the frame count is
one or the stop bound is nonpositive. -/
theorem capStep_init_cause (p : GifParams) (tw th : ℕ) (now : ℚ)
    (h : (capStep p tw th capInit now).2 = true) :
    p.frameCount ≤ 1 ∨ capBound p ≤ 0 := by
  simp only [capStep, capInit] at h
  split_ifs at h <;> simp_all <;> omega

/-- From any state satisfying the loop invariant, the run resolves by the
first tick whose timestamp is at or past the loop start plus the stop
bound. -/
theorem capRun_resolves_late (p : GifParams) (tw th : ℕ) (t0 : ℚ) :
    ∀ (ticks : List ℚ) (s : CapState) (k : ℕ),
      (1 ≤ s.captured ∧ s.captured ≤ p.frameCount ∧ s.startTime = t0) →
      k < ticks.length → capBound p ≤ ticks.getD k 0 - t0 →
      ∃ out n, capRun p tw th ticks s = some (out, n) ∧ n ≤ k + 1 := by
  intro ticks
  induction ticks with
  | nil =>
    intro s k _ hk _
    simp at hk
  | cons r rest ih =>
    intro s k hinv hk hlate
    rcases hstep : capStep p tw th s r with ⟨s1, b⟩
    cases b with
    | true =>
      refine ⟨s1, 1, ?_, by omega⟩
      simp [capRun, hstep]
    | false =>
      have hinv1 : 1 ≤ s1.captured ∧ s1.captured ≤ p.frameCount ∧ s1.startTime = t0 := by
        have h := capStep_inv p tw th t0 r s hinv
        rw [hstep] at h
        exact h
      cases k with
      | zero =>
        exfalso
        have h := capStep_late p tw th t0 r s hinv (by simpa using hlate)
        rw [hstep] at h
        simp at h
      | succ k1 =>
        have hk1 : k1 < rest.length := by
          simp at hk
          omega
        have hlate1 : capBound p ≤ rest.getD k1 0 - t0 := by
          simpa using hlate
        obtain ⟨out, n, hrun, hn⟩ := ih s1 k1 hinv1 hk1 hlate1
        refine ⟨out, n + 1, ?_, by omega⟩
        simp [capRun, hstep, hrun]

/-- From any state satisfying the loop invariant, a resolved run ends with
the invariant intact and resolves on a tick, for one of the two stop
causes. -/
theorem capRun_cause (p : GifParams) (tw th : ℕ) (t0 : ℚ) :
    ∀ (ticks : List ℚ) (s : CapState),
      (1 ≤ s.captured ∧ s.captured ≤ p.frameCount ∧ s.startTime = t0) →
      ∀ out n, capRun p tw th ticks s = some (out, n) →
        1 ≤ out.captured ∧ out.captured ≤ p.frameCount ∧ 1 ≤ n ∧ n ≤ ticks.length ∧
          (p.frameCount ≤ out.captured ∨ capBound p ≤ ticks.getD (n - 1) 0 - t0) := by
  intro ticks
  induction ticks with
  | nil =>
    intro s _ out n hrun
    simp [capRun] at hrun
  | cons r rest ih =>
    intro s hinv out n hrun
    rcases hstep : capStep p tw th s r with ⟨s1, b⟩
    have hinv1 : 1 ≤ s1.captured ∧ s1.captured ≤ p.frameCount ∧ s1.startTime = t0 := by
      have h := capStep_inv p tw th t0 r s hinv
      rw [hstep] at h
      exact h
    cases b with
    | true =>
      simp [capRun, hstep] at hrun
      obtain ⟨ho, hn⟩ := hrun
      subst ho
      subst hn
      refine ⟨hinv1.1, hinv1.2.1, le_refl 1, by simp, ?_⟩
      have hc := capStep_true_cause p tw th t0 r s hinv.1 hinv.2.2 (by rw [hstep])
      rw [hstep] at hc
      simpa using hc
    | false =>
      simp only [capRun, hstep] at hrun
      rcases hmap : capRun p tw th rest s1 with _ | ⟨⟨out1, n1⟩⟩
      · rw [hmap] at hrun
        simp at hrun
      · rw [hmap] at hrun
        simp at hrun
        obtain ⟨ho, hn⟩ := hrun
        obtain ⟨hb1, hb2, hb3, hb4, hb5⟩ := ih s1 hinv1 out1 n1 hmap
        subst ho
        refine ⟨hb1, hb2, by omega, by simp; omega, ?_⟩
        rcases hb5 with hb5 | hb5
        · exact Or.inl hb5
        · right
          have hidx : (n - 1) = (n1 - 1) + 1 := by omega
          rw [hidx, List.getD_cons_succ]
          exact hb5

/-- A resolved run from the initial state captured between one and
frameCount frames, consumed at least one and at most all supplied ticks,
and stopped for one of the two stop causes measured from its own first
tick. -/
theorem capRun_init_bounds (p : GifParams) (tw th : ℕ)
    (hfc : 1 ≤ p.frameCount) (hbound : 0 < capBound p) :
    ∀ (ticks : List ℚ) (out : CapState) (n : ℕ),
      capRun p tw th ticks capInit = some (out, n) →
      1 ≤ out.captured ∧ out.captured ≤ p.frameCount ∧ 1 ≤ n ∧ n ≤ ticks.length ∧
        (p.frameCount ≤ out.captured ∨
          capBound p ≤ ticks.getD (n - 1) 0 - ticks.headI) := by
  intro ticks out n hrun
  cases ticks with
  | nil => simp [capRun] at hrun
  | cons t0 rest =>
    rcases hstep : capStep p tw th capInit t0 with ⟨s1, b⟩
    have hs1 : s1 = ⟨1, t0, t0 + p.frameIntervalMs, [⟨tw, th, p.delayMs, some 0⟩]⟩ := by
      have h := capStep_init p tw th t0 hfc
      rw [hstep] at h
      exact h
    have hinv1 : 1 ≤ s1.captured ∧ s1.captured ≤ p.frameCount ∧ s1.startTime = t0 := by
      rw [hs1]
      exact ⟨le_refl 1, hfc, rfl⟩
    cases b with
    | true =>
      simp [capRun, hstep] at hrun
      obtain ⟨rfl, rfl⟩ := hrun
      have hcause := capStep_init_cause p tw th t0 (by rw [hstep])
      rcases hcause with hc | hc
      · rw [hs1]
        exact ⟨le_refl 1, hfc, le_refl 1, by simp, Or.inl (by simpa using hc)⟩
      · exfalso
        linarith
    | false =>
      simp only [capRun, hstep] at hrun
      rcases hmap : capRun p tw th rest s1 with _ | ⟨⟨out1, n1⟩⟩
      · rw [hmap] at hrun
        simp at hrun
      · rw [hmap] at hrun
        simp at hrun
        obtain ⟨ho, hn⟩ := hrun
        obtain ⟨hb1, hb2, hb3, hb4, hb5⟩ := capRun_cause p tw th t0 rest s1 hinv1 out1 n1 hmap
        subst ho
        refine ⟨hb1, hb2, by omega, by simp; omega, ?_⟩
        rcases hb5 with hb5 | hb5
        · exact Or.inl hb5
        · right
          have hidx : n - 1 = (n1 - 1) + 1 := by omega
          rw [hidx, List.getD_cons_succ]
          simpa using hb5

/-- C1: for every call and every monotonically nondecreasing tick stream,
the sampling loop captures at most one frame per tick; it resolves by the
first tick whose timestamp is at or past its own first tick plus the stop
bound (duration in milliseconds plus one frame interval), so it consumes
finitely many ticks of any stream that ever reaches that instant; whenever
it resolves it has captured between one frame and frameCount frames, where
frameCount is max(1, round(sanitizedDuration times sanitizedFps)), and it
resolved either because frameCount was reached or because the elapsed time
reached the stop bound, whichever came first; in particular for duration
one half, fps 60, scale 1 the number of captured frames is at least one
and at most round(0.5 times 60) plus one. -/
theorem captureGif_loop_bounded (w h : ℕ) (duration fps scale : ℚ)
    (ticks : List ℚ) (hmono : List.Sorted (· ≤ ·) ticks) :
    (∀ (s : CapState) (now : ℚ),
      ((capStep (mkGifParams duration fps scale)
          (targetDim w (mkGifParams duration fps scale).sScale)
          (targetDim h (mkGifParams duration fps scale).sScale) s now).1).captured ≤
        s.captured + 1) ∧
    (∀ k : ℕ, k < ticks.length →
      capBound (mkGifParams duration fps scale) ≤ ticks.getD k 0 - ticks.headI →
      ∃ out n, captureGifModel w h duration fps scale ticks = some (out, n) ∧
        n ≤ k + 1) ∧
    (∀ (out : CapState) (n : ℕ),
      captureGifModel w h duration fps scale ticks = some (out, n) →
      1 ≤ out.captured ∧
        out.captured ≤ (mkGifParams duration fps scale).frameCount ∧
        ((mkGifParams duration fps scale).frameCount ≤ out.captured ∨
          capBound (mkGifParams duration fps scale) ≤
            ticks.getD (n - 1) 0 - ticks.headI)) ∧
    (mkGifParams duration fps scale).frameCount =
      max 1 (jsRound ((mkGifParams duration fps scale).sDuration *
        (mkGifParams duration fps scale).sFps)).toNat ∧
    ((mkGifParams (1 / 2) 60 1).frameCount = 30 ∧
      ∀ (out : CapState) (n : ℕ),
        captureGifModel w h (1 / 2) 60 1 ticks = some (out, n) →
        1 ≤ out.captured ∧ (out.captured : ℤ) ≤ jsRound ((1 / 2 : ℚ) * 60) + 1) := by
  have hfc := frameCount_pos duration fps scale
  have hb := capBound_pos duration fps scale
  have h60 : jsRound 60 = 60 := jsRound_eq _ _ (by norm_num) (by norm_num)
  have h30 : jsRound (30 : ℚ) = 30 := jsRound_eq _ _ (by norm_num) (by norm_num)
  have hfc30 : (mkGifParams (1 / 2) 60 1).frameCount = 30 := by
    simp only [mkGifParams, h60]
    have harg : max (1 / 2 : ℚ) (1 / 2) * min 60 (max 1 (((60 : ℤ) : ℚ))) = 30 := by
      push_cast
      norm_num
    rw [harg, h30]
    rfl
  refine ⟨?_, ?_, ?_, rfl, hfc30, ?_⟩
  · intro s now
    exact (capStep_one_capture _ _ _ s now).1
  · intro k hk hlate
    cases ticks with
    | nil => simp at hk
    | cons t0 rest =>
      simp only [captureGifModel]
      rcases hstep : capStep (mkGifParams duration fps scale)
          (targetDim w (mkGifParams duration fps scale).sScale)
          (targetDim h (mkGifParams duration fps scale).sScale) capInit t0 with ⟨s1, b⟩
      cases b with
      | true =>
        refine ⟨s1, 1, ?_, by omega⟩
        simp [capRun, hstep]
      | false =>
        have hs1 := capStep_init (mkGifParams duration fps scale)
          (targetDim w (mkGifParams duration fps scale).sScale)
          (targetDim h (mkGifParams duration fps scale).sScale) t0 hfc
        rw [hstep] at hs1
        have hinv1 : 1 ≤ s1.captured ∧
            s1.captured ≤ (mkGifParams duration fps scale).frameCount ∧
            s1.startTime = t0 := by
          rw [show s1 = _ from hs1]
          exact ⟨le_refl 1, hfc, rfl⟩
        cases k with
        | zero =>
          exfalso
          simp at hlate
          linarith
        | succ k1 =>
          have hk1 : k1 < rest.length := by
            simp at hk
            omega
          have hlate1 : capBound (mkGifParams duration fps scale) ≤
              rest.getD k1 0 - t0 := by
            simpa using hlate
          obtain ⟨out, n, hrun, hn⟩ := capRun_resolves_late
            (mkGifParams duration fps scale)
            (targetDim w (mkGifParams duration fps scale).sScale)
            (targetDim h (mkGifParams duration fps scale).sScale)
            t0 rest s1 k1 hinv1 hk1 hlate1
          refine ⟨out, n + 1, ?_, by omega⟩
          simp [capRun, hstep, hrun]
  · intro out n hrun
    simp only [captureGifModel] at hrun
    obtain ⟨h1, h2, _, _, h5⟩ := capRun_init_bounds _ _ _ hfc hb ticks out n hrun
    exact ⟨h1, h2, h5⟩
  · intro out n hrun
    simp only [captureGifModel] at hrun
    have hfc2 := frameCount_pos (1 / 2) 60 1
    have hb2 := capBound_pos (1 / 2) 60 1
    obtain ⟨h1, h2, _, _, _⟩ := capRun_init_bounds _ _ _ hfc2 hb2 ticks out n hrun
    refine ⟨h1, ?_⟩
    rw [hfc30] at h2
    have harg2 : (1 / 2 : ℚ) * 60 = 30 := by norm_num
    rw [harg2, h30]
    have h2z : (out.captured : ℤ) ≤ 30 := by exact_mod_cast h2
    omega

/-- Witness for the loop-bound theorem at a concrete tick stream. -/
theorem captureGif_loop_bounded_witness :
    ((capStep (mkGifParams (1 / 2) 60 1)
        (targetDim 1 (mkGifParams (1 / 2) 60 1).sScale)
        (targetDim 1 (mkGifParams (1 / 2) 60 1).sScale) capInit 0).1).captured ≤
      capInit.captured + 1 ∧
      (mkGifParams (1 / 2) 60 1).frameCount = 30 :=
  ⟨(captureGif_loop_bounded 1 1 (1 / 2) 60 1 [0, 600]
      (by norm_num [List.sorted_cons])).1 capInit 0,
    (captureGif_loop_bounded 1 1 (1 / 2) 60 1 [0, 600]
      (by norm_num [List.sorted_cons])).2.2.2.2.1⟩

/-- The sanitized parameters of a concrete call: duration 0 is floored to
one half, fps 1 stays, scale one tenth stays; interval 1000, one frame,
delay 1000. -/
theorem mkGifParams_concrete :
    mkGifParams 0 1 (1 / 10) =
      ⟨1 / 2, 1, 1 / 10, 1000, 1, 1000⟩ := by
  have h1 : jsRound 1 = 1 := jsRound_eq _ _ (by norm_num) (by norm_num)
  rw [mkGifParams, h1]
  have hm : min (60 : ℚ) (max 1 (((1 : ℤ) : ℚ))) = 1 := by
    push_cast
    norm_num
  rw [hm]
  have harg : max (1 / 2 : ℚ) 0 * 1 = 1 / 2 := by norm_num
  rw [harg]
  have hhalf : jsRound (1 / 2 : ℚ) = 1 := jsRound_eq _ _ (by norm_num) (by norm_num)
  rw [hhalf]
  have hdiv : (1000 : ℚ) / 1 = 1000 := by norm_num
  rw [hdiv]
  have h1000 : jsRound (1000 : ℚ) = 1000 := jsRound_eq _ _ (by norm_num) (by norm_num)
  rw [h1000]
  norm_num

/-- The scaled capture dimension of a 4-pixel surface at scale one tenth is
clamped up to one pixel. -/
theorem targetDim_concrete : targetDim 4 (1 / 10 : ℚ) = 1 := by
  rw [targetDim]
  have harg : ((4 : ℕ) : ℚ) * (1 / 10) = 2 / 5 := by push_cast; norm_num
  rw [harg]
  have h0 : jsRound (2 / 5 : ℚ) = 0 := jsRound_eq _ _ (by norm_num) (by norm_num)
  rw [h0]
  rfl

/-- A fully evaluated one-tick capture run on a 4 by 4 surface at scale one
tenth: it resolves on its first tick with a single 1 by 1 frame. -/
theorem captureGifModel_concrete :
    captureGifModel 4 4 0 1 (1 / 10) [(0 : ℚ)] =
      some (⟨1, 0, 1000, [⟨1, 1, 1000, some 0⟩]⟩, 1) := by
  simp only [captureGifModel, mkGifParams_concrete]
  rw [targetDim_concrete]
  rw [capRun]
  have hstep : capStep ⟨1 / 2, 1, 1 / 10, 1000, 1, 1000⟩ 1 1 capInit 0 =
      (⟨1, 0, 1000, [⟨1, 1, 1000, some 0⟩]⟩, true) := by
    simp only [capStep, capInit, capBound]
    norm_num
  rw [hstep]

/-- C8 (counterexample): for the call with surface 4 by 4, duration 0,
fps 1, scale one tenth, the effective scale is one tenth (below one), yet
the single captured frame is 1 by 1 pixels while the claim's formula
round(width times scale) gives 0: the code clamps the scaled dimensions up
to at least one pixel. -/
theorem capture_target_dims_counterexample :
    (mkGifParams 0 1 (1 / 10)).sScale < 1 ∧
      captureGifModel 4 4 0 1 (1 / 10) [(0 : ℚ)] =
        some (⟨1, 0, 1000, [⟨1, 1, 1000, some 0⟩]⟩, 1) ∧
      jsRound ((4 : ℚ) * (mkGifParams 0 1 (1 / 10)).sScale) = 0 ∧
      (1 : ℕ) ≠ (jsRound ((4 : ℚ) * (mkGifParams 0 1 (1 / 10)).sScale)).toNat := by
  rw [mkGifParams_concrete]
  have h0 : jsRound ((4 : ℚ) * (1 / 10)) = 0 := by
    have harg : (4 : ℚ) * (1 / 10) = 2 / 5 := by norm_num
    rw [harg]
    exact jsRound_eq _ _ (by norm_num) (by norm_num)
  refine ⟨by norm_num, captureGifModel_concrete, ?_, ?_⟩
  · exact h0
  · have h0b : jsRound ((4 : ℚ) *
        (⟨1 / 2, 1, 1 / 10, 1000, 1, 1000⟩ : GifParams).sScale) = 0 := h0
    rw [h0b]
    norm_num

/-- Every frame appended by one tick has the fixed target dimensions,
provided all previously appended frames do. -/
theorem capStep_frames_dims (p : GifParams) (tw th : ℕ) (s : CapState) (now : ℚ)
    (hs : ∀ fr ∈ s.frames, fr.width = tw ∧ fr.height = th) :
    ∀ fr ∈ ((capStep p tw th s now).1).frames, fr.width = tw ∧ fr.height = th := by
  simp only [capStep]
  split_ifs <;> intro fr hfr <;>
    first
      | exact hs fr hfr
      | (rcases List.mem_append.mp hfr with hm | hm
         · exact hs fr hm
         · simp only [List.mem_singleton] at hm
           rw [hm]
           exact ⟨rfl, rfl⟩)

/-- Every frame in a resolved run's output has the fixed target
dimensions, provided all frames in the starting state do. -/
theorem capRun_frames_dims (p : GifParams) (tw th : ℕ) :
    ∀ (ticks : List ℚ) (s : CapState),
      (∀ fr ∈ s.frames, fr.width = tw ∧ fr.height = th) →
      ∀ (out : CapState) (n : ℕ), capRun p tw th ticks s = some (out, n) →
      ∀ fr ∈ out.frames, fr.width = tw ∧ fr.height = th := by
  intro ticks
  induction ticks with
  | nil =>
    intro s _ out n hrun
    simp [capRun] at hrun
  | cons r rest ih =>
    intro s hs out n hrun
    rcases hstep : capStep p tw th s r with ⟨s1, b⟩
    have hs1 : ∀ fr ∈ s1.frames, fr.width = tw ∧ fr.height = th := by
      have h := capStep_frames_dims p tw th s r hs
      rw [hstep] at h
      exact h
    cases b with
    | true =>
      simp [capRun, hstep] at hrun
      obtain ⟨rfl, rfl⟩ := hrun
      exact hs1
    | false =>
      simp only [capRun, hstep] at hrun
      rcases hmap : capRun p tw th rest s1 with _ | ⟨⟨out1, n1⟩⟩
      · rw [hmap] at hrun
        simp at hrun
      · rw [hmap] at hrun
        simp at hrun
        obtain ⟨ho, _⟩ := hrun
        subst ho
        exact ih s1 hs1 out1 n1 hmap

/-- C8 (amended): every frame captured by a call is resampled to exactly
max(1, round(width times sanitizedScale)) by max(1, round(height times
sanitizedScale)) pixels, where width and height are the surface dimensions
fixed at the start of that call; the claim's formula holds whenever the
rounded products are at least one, and is clamped up to one pixel
otherwise. -/
theorem capture_frame_dims (w h : ℕ) (duration fps scale : ℚ) (ticks : List ℚ)
    (out : CapState) (n : ℕ)
    (hrun : captureGifModel w h duration fps scale ticks = some (out, n))
    (fr : GifFrame) (hfr : fr ∈ out.frames) :
    fr.width = max 1 (jsRound ((w : ℚ) * (mkGifParams duration fps scale).sScale)).toNat ∧
      fr.height = max 1 (jsRound ((h : ℚ) * (mkGifParams duration fps scale).sScale)).toNat := by
  simp only [captureGifModel] at hrun
  have h1 := capRun_frames_dims (mkGifParams duration fps scale)
    (targetDim w (mkGifParams duration fps scale).sScale)
    (targetDim h (mkGifParams duration fps scale).sScale)
    ticks capInit (by intro fr hfr; simp [capInit] at hfr) out n hrun fr hfr
  exact h1

/-- Witness for the frame-dimension theorem at the concrete one-tick
run. -/
theorem capture_frame_dims_witness :
    (⟨1, 1, 1000, some 0⟩ : GifFrame).width =
        max 1 (jsRound ((4 : ℚ) * (mkGifParams 0 1 (1 / 10)).sScale)).toNat ∧
      (⟨1, 1, 1000, some 0⟩ : GifFrame).height =
        max 1 (jsRound ((4 : ℚ) * (mkGifParams 0 1 (1 / 10)).sScale)).toNat := by
  have hw : ((4 : ℕ) : ℚ) = (4 : ℚ) := by norm_num
  have h := capture_frame_dims 4 4 0 1 (1 / 10) [(0 : ℚ)]
    ⟨1, 0, 1000, [⟨1, 1, 1000, some 0⟩]⟩ 1 captureGifModel_concrete
    ⟨1, 1, 1000, some 0⟩ (by simp)
  rw [hw] at h
  exact h
